import Mathlib

/-!
Verification development for the lowkey LSB-steganography tool.

The Rust sources are shallowly embedded as Lean functions:
* an `RgbaImage` becomes `Image`: width, height and the flattened row-major
  R,G,B,A channel stream (`img.iter()` order), one `Nat` per `u8` channel;
* `u32` arithmetic that can wrap is taken modulo `2 ^ 32` (`mul32`, release
  build semantics); `usize` quantities derived from in-memory buffers are
  plain `Nat`;
* fallible functions return `Except CodecError` (or pair the `&mut` receiver
  with `Option CodecError`), with one error constructor per distinct
  `format!` site of the source;
* the external `sha2` / `chacha20poly1305` crates are not part of the
  repository; their primitives are modelled from the spec (see the doc
  comments on `get_key_bytes`, `keystream_byte` and `auth_tag`), keeping the
  on-the-wire layout `nonce(12) ++ ciphertext ++ tag(16)` and letting the
  nonce be an explicit argument in place of the `OsRng` draw.
-/

deriving instance DecidableEq for Except

namespace Lowkey

/-- Numeric value of one embedded bit. -/
def b2n (b : Bool) : Nat := if b then 1 else 0

/-- LSB of a channel value, as the source reads it: `(c & 1) == 1`. -/
def lsbB (c : Nat) : Bool := (c &&& 1) == 1

/-- An `RgbaImage`: dimensions plus the flattened row-major R,G,B,A channel
stream (`data.length = width * height * 4` for every real image). -/
structure Image where
  width : Nat
  height : Nat
  data : List Nat
deriving DecidableEq, Repr

/-- Bit capacity of one carrier, `width * height * 4`, computed in `usize`
(`src/img/common.rs`, `check_capacity_image`); a real image's buffer forces
the product to fit `usize`, so plain `Nat` is exact. -/
def capacityBits (img : Image) : Nat := img.width * img.height * 4

/-- Error kinds, one constructor per distinct `format!`/`Err` site of the
source (the source reports them as strings). -/
inductive CodecError where
  /-- common.rs `check_capacity`: capacity in bits, required bits. -/
  | messageTooLarge (capacity needed : Nat)
  /-- main.rs `encode_bytes_v0` / `encode_from_multiple_files`: capacity in bytes. -/
  | messageTooLargeBytes (capacityBytes : Nat)
  /-- codec.rs `decode_from_files`: version byte mismatch. -/
  | unsupportedVersion (got expected : Nat)
  /-- pixel.rs `read_bits`: channels exhausted. -/
  | insufficientData (available needed : Nat)
  /-- crypto.rs `decrypt`: fewer than 28 input bytes. -/
  | encryptedTooShort (len : Nat)
  /-- crypto.rs `decrypt`: AEAD verification failed. -/
  | decryptFailed
  /-- codec.rs `encode_from_files` / `decode_from_files`: empty input list. -/
  | noInputImages
deriving DecidableEq, Repr

/-! ## src/img/common.rs -/

/-- common.rs `check_capacity`. -/
def check_capacity (capacity_bit_count bit_count : Nat) : Except CodecError Unit :=
  if bit_count > capacity_bit_count then
    .error (.messageTooLarge capacity_bit_count bit_count)
  else
    .ok ()

/-- common.rs `check_capacity_image`: capacity of one carrier in bits. -/
def check_capacity_image (img : Image) (bits : List Bool) : Except CodecError Unit :=
  check_capacity (capacityBits img) bits.length

/-- Wrapping `u32` multiplication (release-build semantics). -/
def mul32 (a b : Nat) : Nat := a * b % 2 ^ 32

/-- The `u32` sum `imgs.iter().map(|img| w * h * 4).sum()` of
common.rs `check_capacity_images`, with wrapping products and sum. -/
def images_capacity_u32 (imgs : List Image) : Nat :=
  imgs.foldl (fun acc img => (acc + mul32 (mul32 img.width img.height) 4) % 2 ^ 32) 0

/-- common.rs `check_capacity_images`. -/
def check_capacity_images (imgs : List Image) (bits : List Bool) : Except CodecError Unit :=
  check_capacity (images_capacity_u32 imgs) bits.length

/-- The exact mathematical sum of `width * height * 4` over a carrier set
(the spec's notion of total capacity), for comparison with the `u32` sum the
code computes. -/
def sum_capacity (imgs : List Image) : Nat :=
  (imgs.map (fun img => img.width * img.height * 4)).sum

/-- The eight bits of one byte, least significant first
(`(0..8).map(|bit_pos| (byte >> bit_pos) & 1 == 1)`). -/
def bitsOfByte (byte : Nat) : List Bool :=
  (List.range 8).map (fun bit_pos => (byte >>> bit_pos) &&& 1 == 1)

/-- common.rs `convert_bytes_to_bits`: flat-map every byte to its eight bits,
LSB first. -/
def convert_bytes_to_bits (bytes : List Nat) : List Bool :=
  bytes.flatMap bitsOfByte

/-! ## src/img/pixel.rs -/

/-- The write loop of pixel.rs `set_bits_image`: channel `i` becomes
`(channel & 0xFE) | bit`; channels beyond the bit list are untouched
(the iterator zips bits with channels). -/
def setBitsList : List Nat → List Bool → List Nat
  | chs, [] => chs
  | [], _ :: _ => []
  | c :: cs, b :: bs => ((c &&& 254) ||| b2n b) :: setBitsList cs bs

/-- pixel.rs `set_bits_image`: capacity check, then the LSB writes. The pair
returns the final state of the `&mut` image together with the optional error,
so that what the caller's borrow sees on the error path is explicit. -/
def set_bits_image (img : Image) (bits : List Bool) : Image × Option CodecError :=
  match check_capacity_image img bits with
  | .error e => (img, some e)
  | .ok _ => ({ img with data := setBitsList img.data bits }, none)

/-- pixel.rs `read_bits`: take `length` channel values from the (sequential)
reader and return their LSBs; fewer available channels is an error. -/
def read_bits (channels : List Nat) (length : Nat) : Except CodecError (List Bool) :=
  if channels.length < length then
    .error (.insufficientData channels.length length)
  else
    .ok ((channels.take length).map lsbB)

/-! ## src/crypto.rs (with spec-modelled external primitives) -/

/-- Modelled from the spec: `get_key_bytes` hashes the passphrase with
SHA-256 (the `sha2` crate, absent from src/) into a 32-byte key; modelled as
a concrete 32-byte digest of the key string's characters. -/
def get_key_bytes (key : String) : List Nat :=
  let cs := key.data.map Char.toNat
  (List.range 32).map (fun i => (cs.foldl (fun a c => a * 131 + c) (i + 1)) % 256)

/-- Modelled from the spec: one ChaCha20 keystream byte (the
`chacha20poly1305` crate, absent from src/) for a key, nonce and stream
position; any deterministic byte-valued function is faithful to the spec's
interface. -/
def keystream_byte (kb nonce : List Nat) (i : Nat) : Nat :=
  (kb.foldl (fun a c => a * 3 + c) 0 + nonce.foldl (fun a c => a * 5 + c) 0 + i * 7 + 1) % 256

/-- Modelled from the spec: the 16-byte Poly1305 tag over the ciphertext,
keyed by key and nonce (the `chacha20poly1305` crate, absent from src/). -/
def auth_tag (kb nonce ct : List Nat) : List Nat :=
  (List.range 16).map
    (fun i => (kb.foldl (fun a c => a * 3 + c) 0 + nonce.foldl (fun a c => a * 5 + c) 0
      + ct.foldl (fun a c => a * 2 + c) 0 + i) % 256)

/-- XOR of a byte stream with the keystream starting at position `start`;
`encrypt` and the cipher half of `decrypt` both use it (stream-cipher model
of ChaCha20). -/
def xorKeystream (kb nonce : List Nat) (start : Nat) : List Nat → List Nat
  | [] => []
  | c :: rest => (c ^^^ keystream_byte kb nonce start) :: xorKeystream kb nonce (start + 1) rest

/-- crypto.rs `encrypt`, with the `OsRng` nonce as an explicit argument:
derive the key, encrypt, return `nonce ++ ciphertext ++ tag` (the source's
`nonce` then `ciphertext‖tag`). The source only fails on an internal cipher
error, which the model does not have. -/
def encryptWithNonce (plaintext : List Nat) (key : String) (nonce : List Nat) : List Nat :=
  let kb := get_key_bytes key
  let ct := xorKeystream kb nonce 0 plaintext
  nonce ++ ct ++ auth_tag kb nonce ct

/-- crypto.rs `decrypt`: reject fewer than 12 + 16 bytes, split off the
nonce, verify the 16-byte tag suffix (the AEAD `open` of the
`chacha20poly1305` crate, modelled from the spec), then decrypt. -/
def decrypt (encrypted_data : List Nat) (key : String) : Except CodecError (List Nat) :=
  if encrypted_data.length < 12 + 16 then
    .error (.encryptedTooShort encrypted_data.length)
  else
    let kb := get_key_bytes key
    let nonce := encrypted_data.take 12
    let rest := encrypted_data.drop 12
    let ct := rest.take (rest.length - 16)
    let tag := rest.drop (rest.length - 16)
    if tag = auth_tag kb nonce ct then
      .ok (xorKeystream kb nonce 0 ct)
    else
      .error .decryptFailed

/-! ## src/img/codec.rs -/

/-- Protocol version constant of codec.rs. -/
def PROTOCOL_VERSION : Nat := 0

/-- Big-endian bytes of a `u32` (`u32::to_be_bytes`). -/
def toBE32 (n : Nat) : List Nat :=
  [n / 2 ^ 24 % 256, n / 2 ^ 16 % 256, n / 2 ^ 8 % 256, n % 256]

/-- Value of big-endian bytes (`u32::from_be_bytes`): fold, high byte first. -/
def fromBE32 (bytes : List Nat) : Nat :=
  bytes.foldl (fun acc b => acc * 256 + b) 0

/-- One byte from up to eight bits, LSB first: the source's
`fold(0u8, |acc, (i, bit)| acc | ((bit as u8) << i))`. -/
def byte_of_bits (bits : List Bool) : Nat :=
  bits.enum.foldl (fun acc p => acc ||| (b2n p.2 <<< p.1)) 0

/-- Bytes from a bit stream consumed in groups of eight
(`bits.chunks(8).map(...)` of `decode_from_files`; a shorter final chunk
still yields one byte, as `chunks` does). Written with an eight-deep match
so the recursion is structural. -/
def bits_to_bytes : List Bool → List Nat
  | [] => []
  | b0 :: b1 :: b2 :: b3 :: b4 :: b5 :: b6 :: b7 :: rest =>
      byte_of_bits [b0, b1, b2, b3, b4, b5, b6, b7] :: bits_to_bytes rest
  | l => [byte_of_bits l]

/-- codec.rs `get_message_header_bytes`: version byte, then the encrypted
body's length as big-endian `u32` (the `as u32` cast wraps). -/
def get_message_header_bytes (body_bytes : List Nat) : List Nat :=
  PROTOCOL_VERSION :: toBE32 (body_bytes.length % 2 ^ 32)

/-- codec.rs `get_message_body_bytes`: encrypt the payload (nonce explicit,
see `encryptWithNonce`). -/
def get_message_body_bytes (message_bytes : List Nat) (key : String) (nonce : List Nat) :
    List Nat :=
  encryptWithNonce message_bytes key nonce

/-- codec.rs `get_message_bits`: header bytes, body bytes, then LSB-first
bits of the concatenation. -/
def get_message_bits (message_bytes : List Nat) (key : String) (nonce : List Nat) :
    List Bool :=
  let body_bytes := get_message_body_bytes message_bytes key nonce
  convert_bytes_to_bits (get_message_header_bytes body_bytes ++ body_bytes)

/-- Per-carrier bit capacity `(width * height * 4) as usize` as computed in
`u32` by codec.rs `encode_from_files` and common.rs `check_capacity_images`
(wrapping multiplication). -/
def cap32 (img : Image) : Nat := mul32 (mul32 img.width img.height) 4

/-- The version byte a decoder recovers from a channel stream: first of the
five header bytes rebuilt from the first 40 LSBs. -/
def readVersion (channels : List Nat) : Nat :=
  (bits_to_bytes ((channels.take 40).map lsbB)).getD 0 0

/-- The decode pipeline of codec.rs `decode_from_files` over the flattened
channel stream of the (already ordered) carriers: read 40 header bits,
rebuild the five header bytes, reject a wrong version byte before the body
is read, read `count * 8` body bits, rebuild the body bytes, decrypt. -/
def decode_channels (channels : List Nat) (key : String) : Except CodecError (List Nat) :=
  match read_bits channels 40 with
  | .error e => .error e
  | .ok headerBits =>
    let headerBytes := bits_to_bytes headerBits
    let version := headerBytes.getD 0 0
    let count := fromBE32 (headerBytes.drop 1)
    if version ≠ PROTOCOL_VERSION then
      .error (.unsupportedVersion version PROTOCOL_VERSION)
    else
      match read_bits (channels.drop 40) (count * 8) with
      | .error e => .error e
      | .ok bodyBits => decrypt (bits_to_bytes bodyBits) key

/-- codec.rs `decode_from_files` (file I/O, PNG checks and the
sequence-metadata reordering stripped): the shared reader flat-maps every
carrier's channels in order. -/
def decode_from_files_model (imgs : List Image) (key : String) : Except CodecError (List Nat) :=
  if imgs.isEmpty then .error .noInputImages
  else decode_channels (imgs.flatMap Image.data) key

/-- The carrier loop of codec.rs `encode_from_files`: stop as soon as the
cursor reaches the end of the bit stream (`if cursor >= total_bits break`,
so later carriers are not saved), otherwise give the carrier the next
`min(image_capacity_bits, total_bits - cursor)` bits and save it. Returns
the list of saved carriers in order. -/
def encodeSaveLoop : List Image → List Bool → Except CodecError (List Image)
  | [], _ => .ok []
  | img :: rest, bits =>
    if bits.length = 0 then .ok []
    else
      let n := min (cap32 img) bits.length
      match set_bits_image img (bits.take n) with
      | (_, some e) => .error e
      | (img2, none) =>
        match encodeSaveLoop rest (bits.drop n) with
        | .error e => .error e
        | .ok out => .ok (img2 :: out)

/-- codec.rs `encode_from_files` (file I/O stripped): reject an empty input
list, frame the message, check the summed capacity, then run the carrier
loop; the result is the list of saved output images. -/
def encode_from_files_model (imgs : List Image) (message_bytes : List Nat) (key : String)
    (nonce : List Nat) : Except CodecError (List Image) :=
  if imgs.isEmpty then .error .noInputImages
  else
    let bits := get_message_bits message_bytes key nonce
    match check_capacity_images imgs bits with
    | .error e => .error e
    | .ok _ => encodeSaveLoop imgs bits

/-- Written from the amended claim's words (C8), not from the source: carrier
`k` receives the next `min(capacity_k, remaining)` bits of the stream and is
saved; once the stream is exhausted no further carrier is saved. Compared
with `encode_from_files_model` by the C8 theorem. -/
def specSplitSaved : List Image → List Bool → List Image
  | [], _ => []
  | img :: rest, bits =>
    if bits = [] then []
    else
      let n := min (cap32 img) bits.length
      { img with data := setBitsList img.data (bits.take n) } :: specSplitSaved rest (bits.drop n)

/-! ## src/main.rs (v0 framing, no encryption) -/

/-- main.rs `encode_bytes_v0`: byte-level capacity check in `u32`
(`(width * height * 4) / 8` bytes against `message_len + 4`), then the
4-byte big-endian length prefix plus the message is written LSB-first into
the flattened channel stream (the source addresses channels through
`(x, y, channel)`, which enumerates exactly the flattened row-major stream).
The pair returns the final state of the `&mut` image with the optional
error. -/
def encode_bytes_v0 (img : Image) (message_bytes : List Nat) : Image × Option CodecError :=
  let message_len := message_bytes.length % 2 ^ 32
  let total_capacity := cap32 img / 8
  if (message_len + 4) % 2 ^ 32 > total_capacity then
    (img, some (.messageTooLargeBytes total_capacity))
  else
    let data_to_hide := toBE32 message_len ++ message_bytes
    ({ img with data := setBitsList img.data (convert_bytes_to_bits data_to_hide) }, none)

/-! ## src/img/resize.rs -/

/-- Ceiling division on naturals, the exact value of `(a as f64 / b).ceil()`
for exactly representable inputs. -/
def ceilDivNat (a b : Nat) : Nat := (a + b - 1) / b

/-- Bounded upward search for the least `k` (starting from the given `k`)
with `a ≤ k * k * b`; written with explicit fuel so it is structurally
recursive and reduces in the kernel. -/
def ceilSqrtSearch (a b : Nat) : Nat → Nat → Nat
  | 0, k => k
  | fuel + 1, k => if a ≤ k * k * b then k else ceilSqrtSearch a b fuel (k + 1)

/-- Least `n` with `a ≤ n * n * b` (for `b > 0`): the exact value of
`(a as f64 / b).sqrt().ceil()` when the float computation is exact. The
starting fuel `a / b + 2` exceeds every possible answer. -/
def ceilSqrtRat (a b : Nat) : Nat := ceilSqrtSearch a b (a / b + 2) 0

/-- Saturating `f64 -> u32` cast of a nonnegative integer value: Rust float
casts clamp to the target range, so values at or above `2 ^ 32` become
`u32::MAX`. -/
def satU32 (n : Nat) : Nat := min n (2 ^ 32 - 1)

/-- Tail of `calculate_optimal_dimensions` (factored out): clamp the
candidate pair to the original dimensions, compute the capacity in `u32`
(`(new_width * new_height * 4) / 8`, wrapping products), and fall back to
the unmodified original dimensions when it is below `total_bytes as u32` —
the truncating `usize -> u32` cast of the source's comparison, modelled as
`total_bytes % 2 ^ 32`. -/
def clamp_and_check (total_bytes ow oh : Nat) (p : Nat × Nat) : Nat × Nat :=
  let nw := min p.1 ow
  let nh := min p.2 oh
  let capacity := mul32 (mul32 nw nh) 4 / 8
  if capacity < total_bytes % 2 ^ 32 then (ow, oh) else (nw, nh)

/-- resize.rs / main.rs `calculate_optimal_dimensions`. The `f64` phase
(`aspect_ratio`, `sqrt`, `ceil`) is modelled with exact rational arithmetic:
`min_pixels_needed = ceil(total * 8 / 4.0) = total * 2` exactly,
`new_height = ceil(sqrt(min_pixels / (ow / oh)))` is `ceilSqrtRat`,
`ceil(x * ow / oh)` is `ceilDivNat`, and `aspect_ratio >= 1.0` is `oh ≤ ow`
(exact for `u32` dimensions, whose quotients round across 1.0 only at
relative error below `2 ^ -32`). Every `.ceil() as u32` site carries the
saturating `f64 -> u32` cast (`satU32`); for `min_pixels_needed` the model
is exact even where `(total * 8) as f64` rounds, because any such value
already saturates. The theorems that quantify over all inputs depend only
on the final integer clamp and truncated capacity comparison in
`clamp_and_check`, which the model shares verbatim with the source; the
concrete evaluations use inputs at which every `f64` step is exact
(quotients by powers of two, perfect squares, values below `2 ^ 32`). -/
def calculate_optimal_dimensions (message_bytes ow oh min_dimension : Nat) : Nat × Nat :=
  let total_bytes := message_bytes + 4
  let min_pixels_needed := satU32 (total_bytes * 2)
  let nh0 := satU32 (ceilSqrtRat (min_pixels_needed * oh) ow)
  let nw0 := satU32 (ceilDivNat (nh0 * ow) oh)
  let effective_min := min min_dimension (min ow oh)
  let p :=
    if nw0 < effective_min ∨ nh0 < effective_min then
      if oh ≤ ow then (effective_min, satU32 (ceilDivNat (effective_min * oh) ow))
      else (satU32 (ceilDivNat (effective_min * ow) oh), effective_min)
    else (nw0, nh0)
  clamp_and_check total_bytes ow oh p

/-! ## Helper lemmas: bits and channels -/

lemma lsbB_set (c : Nat) (b : Bool) : lsbB ((c &&& 254) ||| b2n b) = b := by
  have h254 : (c &&& 254) &&& 1 = 0 := by
    rw [Nat.and_assoc, show (254 &&& 1 : Nat) = 0 from rfl, Nat.and_zero]
  cases b with
  | false => simp [lsbB, b2n, Nat.or_zero, h254]
  | true =>
    have ht : (((c &&& 254) ||| 1).testBit 0) = true := by
      simp [Nat.testBit_or]
    have h2 : ((c &&& 254) ||| 1) % 2 = 1 := by
      have h3 := Nat.testBit_zero ((c &&& 254) ||| 1)
      rw [ht] at h3
      exact of_decide_eq_true h3.symm
    simp [lsbB, b2n, Nat.and_one_is_mod, h2]

set_option maxRecDepth 4096 in
lemma set_channel_val : ∀ c < 256, ∀ b : Bool,
    ((c &&& 254) ||| b2n b) = 2 * (c / 2) + b2n b := by decide

lemma setBitsList_length (chs : List Nat) (bits : List Bool) :
    (setBitsList chs bits).length = chs.length := by
  induction chs generalizing bits with
  | nil => cases bits <;> simp [setBitsList]
  | cons c cs ih => cases bits <;> simp [setBitsList, ih]

lemma setBitsList_map_lsb (bits : List Bool) (chs : List Nat)
    (h : bits.length ≤ chs.length) :
    (setBitsList chs bits).map lsbB = bits ++ (chs.drop bits.length).map lsbB := by
  induction bits generalizing chs with
  | nil => simp [setBitsList]
  | cons b bs ih =>
    cases chs with
    | nil => simp at h
    | cons c cs =>
      simp only [setBitsList, List.map_cons, lsbB_set, List.length_cons, List.drop_succ_cons,
        List.cons_append, List.cons.injEq, true_and]
      exact ih cs (by simpa using h)

lemma setBitsList_getD (chs : List Nat) (bits : List Bool) (i : Nat) :
    (setBitsList chs bits).getD i 0 =
      if i < bits.length ∧ i < chs.length then
        (chs.getD i 0 &&& 254) ||| b2n (bits.getD i false)
      else chs.getD i 0 := by
  induction chs generalizing bits i with
  | nil => cases bits <;> simp [setBitsList]
  | cons c cs ih =>
    cases bits with
    | nil => simp [setBitsList]
    | cons b bs =>
      cases i with
      | zero => simp [setBitsList]
      | succ j =>
        simp only [setBitsList, List.getD_cons_succ, ih, List.length_cons]
        by_cases hj : j < bs.length ∧ j < cs.length
        · rw [if_pos hj, if_pos (by omega)]
        · rw [if_neg hj, if_neg (by omega)]

lemma bitsOfByte_length (byte : Nat) : (bitsOfByte byte).length = 8 := by
  simp [bitsOfByte]

lemma convert_cons (b : Nat) (bs : List Nat) :
    convert_bytes_to_bits (b :: bs) = bitsOfByte b ++ convert_bytes_to_bits bs := by
  simp [convert_bytes_to_bits]

lemma convert_append (xs ys : List Nat) :
    convert_bytes_to_bits (xs ++ ys) =
      convert_bytes_to_bits xs ++ convert_bytes_to_bits ys := by
  simp [convert_bytes_to_bits]

lemma convert_length (bytes : List Nat) :
    (convert_bytes_to_bits bytes).length = 8 * bytes.length := by
  induction bytes with
  | nil => simp [convert_bytes_to_bits]
  | cons b bs ih => rw [convert_cons]; simp [bitsOfByte_length, ih]; ring

set_option maxRecDepth 4096 in
lemma byte_of_bitsOfByte : ∀ b < 256, byte_of_bits (bitsOfByte b) = b := by decide

lemma bits_to_bytes_cons_block (l : List Bool) (h : l ≠ []) :
    bits_to_bytes l = byte_of_bits (l.take 8) :: bits_to_bytes (l.drop 8) := by
  match l with
  | [] => exact absurd rfl h
  | [b0] => rfl
  | [b0, b1] => rfl
  | [b0, b1, b2] => rfl
  | [b0, b1, b2, b3] => rfl
  | [b0, b1, b2, b3, b4] => rfl
  | [b0, b1, b2, b3, b4, b5] => rfl
  | [b0, b1, b2, b3, b4, b5, b6] => rfl
  | b0 :: b1 :: b2 :: b3 :: b4 :: b5 :: b6 :: b7 :: rest => rfl

lemma bits_to_bytes_convert (bytes : List Nat) (h : ∀ b ∈ bytes, b < 256) :
    bits_to_bytes (convert_bytes_to_bits bytes) = bytes := by
  induction bytes with
  | nil => simp [convert_bytes_to_bits, bits_to_bytes]
  | cons b bs ih =>
    rw [convert_cons]
    have hlen : (bitsOfByte b).length = 8 := bitsOfByte_length b
    have hne : bitsOfByte b ++ convert_bytes_to_bits bs ≠ [] := by
      intro hc
      have := congrArg List.length hc
      simp [hlen] at this
    rw [bits_to_bytes_cons_block _ hne]
    rw [show (8 : Nat) = (bitsOfByte b).length from hlen.symm]
    rw [List.take_left, List.drop_left]
    rw [byte_of_bitsOfByte b (h b (by simp)), ih (fun x hx => h x (by simp [hx]))]

/-! ## Helper lemmas: framing and the cipher model -/

lemma fromBE32_toBE32 (n : Nat) (h : n < 2 ^ 32) : fromBE32 (toBE32 n) = n := by
  simp only [fromBE32, toBE32, List.foldl_cons, List.foldl_nil]
  omega

lemma toBE32_lt (n : Nat) : ∀ b ∈ toBE32 n, b < 256 := by
  intro b hb
  simp only [toBE32, List.mem_cons, List.not_mem_nil, or_false] at hb
  rcases hb with h | h | h | h <;> subst h <;> omega

lemma xorKeystream_length (kb nonce : List Nat) (start : Nat) (l : List Nat) :
    (xorKeystream kb nonce start l).length = l.length := by
  induction l generalizing start with
  | nil => rfl
  | cons c cs ih => simp [xorKeystream, ih]

lemma xorKeystream_involutive (kb nonce : List Nat) (start : Nat) (l : List Nat) :
    xorKeystream kb nonce start (xorKeystream kb nonce start l) = l := by
  induction l generalizing start with
  | nil => rfl
  | cons c cs ih => simp [xorKeystream, Nat.xor_cancel_right, ih]

lemma keystream_byte_lt (kb nonce : List Nat) (i : Nat) :
    keystream_byte kb nonce i < 256 :=
  Nat.mod_lt _ (by norm_num)

lemma xorKeystream_lt (kb nonce : List Nat) (start : Nat) (l : List Nat)
    (h : ∀ x ∈ l, x < 256) : ∀ y ∈ xorKeystream kb nonce start l, y < 256 := by
  induction l generalizing start with
  | nil => simp [xorKeystream]
  | cons c cs ih =>
    intro y hy
    simp only [xorKeystream, List.mem_cons] at hy
    rcases hy with hy | hy
    · subst hy
      have h1 : c < 2 ^ 8 := h c (by simp)
      have h2 : keystream_byte kb nonce start < 2 ^ 8 := keystream_byte_lt kb nonce start
      exact Nat.xor_lt_two_pow h1 h2
    · exact ih (start + 1) (fun x hx => h x (by simp [hx])) y hy

lemma auth_tag_length (kb nonce ct : List Nat) : (auth_tag kb nonce ct).length = 16 := by
  simp [auth_tag]

lemma auth_tag_lt (kb nonce ct : List Nat) : ∀ b ∈ auth_tag kb nonce ct, b < 256 := by
  intro b hb
  simp only [auth_tag, List.mem_map, List.mem_range] at hb
  obtain ⟨i, _, hi⟩ := hb
  omega

lemma encryptWithNonce_length (pt : List Nat) (key : String) (nonce : List Nat)
    (h12 : nonce.length = 12) :
    (encryptWithNonce pt key nonce).length = pt.length + 28 := by
  simp [encryptWithNonce, xorKeystream_length, auth_tag_length, h12]
  omega

lemma encryptWithNonce_lt (pt : List Nat) (key : String) (nonce : List Nat)
    (hn : ∀ b ∈ nonce, b < 256) (hp : ∀ b ∈ pt, b < 256) :
    ∀ b ∈ encryptWithNonce pt key nonce, b < 256 := by
  intro b hb
  simp only [encryptWithNonce, List.mem_append] at hb
  rcases hb with (hb | hb) | hb
  · exact hn b hb
  · exact xorKeystream_lt _ _ 0 pt hp b hb
  · exact auth_tag_lt _ _ _ b hb

lemma decrypt_parts (key : String) (nonce ct tag : List Nat)
    (h12 : nonce.length = 12) (h16 : tag.length = 16)
    (htag : tag = auth_tag (get_key_bytes key) nonce ct) :
    decrypt (nonce ++ (ct ++ tag)) key =
      .ok (xorKeystream (get_key_bytes key) nonce 0 ct) := by
  have hlen : (nonce ++ (ct ++ tag)).length = ct.length + 28 := by
    simp only [List.length_append, h12, h16]
    omega
  have hnotshort : ¬ (nonce ++ (ct ++ tag)).length < 12 + 16 := by omega
  simp only [decrypt]
  rw [if_neg hnotshort]
  rw [show (12 : Nat) = nonce.length from h12.symm, List.take_left, List.drop_left]
  rw [show (ct ++ tag).length - 16 = ct.length by simp [h16]]
  rw [List.take_left, List.drop_left]
  rw [if_pos htag]

lemma decrypt_encryptWithNonce (pt : List Nat) (key : String) (nonce : List Nat)
    (h12 : nonce.length = 12) :
    decrypt (encryptWithNonce pt key nonce) key = .ok pt := by
  have h := decrypt_parts key nonce (xorKeystream (get_key_bytes key) nonce 0 pt)
    (auth_tag (get_key_bytes key) nonce (xorKeystream (get_key_bytes key) nonce 0 pt))
    h12 (auth_tag_length _ _ _) rfl
  have henc : encryptWithNonce pt key nonce =
      nonce ++ xorKeystream (get_key_bytes key) nonce 0 pt ++
        auth_tag (get_key_bytes key) nonce (xorKeystream (get_key_bytes key) nonce 0 pt) := rfl
  rw [henc, List.append_assoc, h, xorKeystream_involutive]

lemma get_message_bits_length (msg : List Nat) (key : String) (nonce : List Nat)
    (h12 : nonce.length = 12) :
    (get_message_bits msg key nonce).length = 8 * (msg.length + 33) := by
  simp only [get_message_bits, get_message_body_bytes, convert_length,
    get_message_header_bytes, List.length_append, List.length_cons]
  rw [encryptWithNonce_length msg key nonce h12]
  simp [toBE32]
  ring

lemma header_bytes_lt (body : List Nat) : ∀ b ∈ get_message_header_bytes body, b < 256 := by
  intro b hb
  simp only [get_message_header_bytes, List.mem_cons] at hb
  rcases hb with h | h
  · subst h; norm_num [PROTOCOL_VERSION]
  · exact toBE32_lt _ b h

lemma decode_channels_setBits (P : List Nat) (key : String) (nonce : List Nat)
    (chs : List Nat)
    (hn12 : nonce.length = 12) (hnB : ∀ b ∈ nonce, b < 256)
    (hbytesP : ∀ b ∈ P, b < 256)
    (hsmall : P.length + 28 < 2 ^ 32)
    (hfit : (get_message_bits P key nonce).length ≤ chs.length) :
    decode_channels (setBitsList chs (get_message_bits P key nonce)) key = .ok P := by
  have hblen : (encryptWithNonce P key nonce).length = P.length + 28 :=
    encryptWithNonce_length P key nonce hn12
  have hhdlen : (get_message_header_bytes (encryptWithNonce P key nonce)).length = 5 := by
    simp [get_message_header_bytes, toBE32]
  have hbits : get_message_bits P key nonce =
      convert_bytes_to_bits (get_message_header_bytes (encryptWithNonce P key nonce)) ++
        convert_bytes_to_bits (encryptWithNonce P key nonce) := by
    rw [show get_message_bits P key nonce =
      convert_bytes_to_bits (get_message_header_bytes (encryptWithNonce P key nonce) ++
        encryptWithNonce P key nonce) from rfl, convert_append]
  have hchlen :
      (convert_bytes_to_bits (get_message_header_bytes (encryptWithNonce P key nonce))).length
        = 40 := by
    rw [convert_length, hhdlen]
  have hcblen : (convert_bytes_to_bits (encryptWithNonce P key nonce)).length
      = 8 * (encryptWithNonce P key nonce).length := convert_length _
  have hbitslen : (get_message_bits P key nonce).length
      = 40 + 8 * (encryptWithNonce P key nonce).length := by
    rw [hbits, List.length_append, hchlen, hcblen]
  have hsble : (setBitsList chs (get_message_bits P key nonce)).length = chs.length :=
    setBitsList_length chs _
  have hmap : (setBitsList chs (get_message_bits P key nonce)).map lsbB =
      get_message_bits P key nonce ++
        (chs.drop (get_message_bits P key nonce).length).map lsbB :=
    setBitsList_map_lsb _ chs hfit
  have hr1 : read_bits (setBitsList chs (get_message_bits P key nonce)) 40 =
      .ok (convert_bytes_to_bits (get_message_header_bytes (encryptWithNonce P key nonce))) := by
    simp only [read_bits]
    rw [if_neg (by rw [hsble]; omega)]
    rw [List.map_take, hmap,
      List.take_append_of_le_length (by omega),
      hbits, List.take_append_of_le_length (le_of_eq hchlen.symm),
      List.take_of_length_le (le_of_eq hchlen)]
  have hheaderBytes :
      bits_to_bytes (convert_bytes_to_bits (get_message_header_bytes (encryptWithNonce P key nonce)))
        = get_message_header_bytes (encryptWithNonce P key nonce) :=
    bits_to_bytes_convert _ (header_bytes_lt _)
  have hcount : fromBE32 ((get_message_header_bytes (encryptWithNonce P key nonce)).drop 1)
      = (encryptWithNonce P key nonce).length := by
    rw [show (get_message_header_bytes (encryptWithNonce P key nonce)).drop 1
        = toBE32 ((encryptWithNonce P key nonce).length % 2 ^ 32) from rfl]
    rw [fromBE32_toBE32 _ (Nat.mod_lt _ (by norm_num))]
    exact Nat.mod_eq_of_lt (by omega)
  have hr2 : read_bits ((setBitsList chs (get_message_bits P key nonce)).drop 40)
      ((encryptWithNonce P key nonce).length * 8) =
      .ok (convert_bytes_to_bits (encryptWithNonce P key nonce)) := by
    simp only [read_bits]
    rw [if_neg (by simp only [List.length_drop]; rw [hsble]; omega)]
    rw [List.map_take, List.map_drop, hmap,
      List.drop_append_of_le_length (by omega),
      hbits, List.drop_append_of_le_length (le_of_eq hchlen.symm),
      List.drop_of_length_le (le_of_eq hchlen), List.nil_append,
      List.take_append_of_le_length (by omega),
      List.take_of_length_le (by omega)]
  have hbody : bits_to_bytes (convert_bytes_to_bits (encryptWithNonce P key nonce))
      = encryptWithNonce P key nonce :=
    bits_to_bytes_convert _ (encryptWithNonce_lt P key nonce hnB hbytesP)
  simp only [decode_channels, hr1, hheaderBytes]
  rw [show (get_message_header_bytes (encryptWithNonce P key nonce)).getD 0 0
      = PROTOCOL_VERSION from rfl]
  rw [if_neg (by simp)]
  rw [hcount, hr2]
  show decrypt (bits_to_bytes (convert_bytes_to_bits (encryptWithNonce P key nonce))) key
      = .ok P
  rw [hbody]
  exact decrypt_encryptWithNonce P key nonce hn12

lemma images_capacity_u32_foldl (imgs : List Image) : ∀ acc : Nat,
    acc + sum_capacity imgs < 2 ^ 32 →
    imgs.foldl (fun acc img => (acc + mul32 (mul32 img.width img.height) 4) % 2 ^ 32) acc
      = acc + sum_capacity imgs := by
  induction imgs with
  | nil => intro acc h; simp [sum_capacity]
  | cons i rest ih =>
    intro acc h
    have hsum : sum_capacity (i :: rest) = i.width * i.height * 4 + sum_capacity rest := by
      simp [sum_capacity]
    rw [hsum] at h
    have h4 : i.width * i.height * 4 < 2 ^ 32 := by omega
    have hwh : i.width * i.height < 2 ^ 32 := by
      have : i.width * i.height ≤ i.width * i.height * 4 := Nat.le_mul_of_pos_right _ (by norm_num)
      omega
    rw [List.foldl_cons]
    rw [show mul32 i.width i.height = i.width * i.height from Nat.mod_eq_of_lt hwh]
    rw [show mul32 (i.width * i.height) 4 = i.width * i.height * 4 from Nat.mod_eq_of_lt h4]
    rw [Nat.mod_eq_of_lt (by omega)]
    rw [ih (acc + i.width * i.height * 4) (by omega)]
    rw [hsum]
    ring

lemma images_capacity_u32_eq (imgs : List Image) (h : sum_capacity imgs < 2 ^ 32) :
    images_capacity_u32 imgs = sum_capacity imgs := by
  have := images_capacity_u32_foldl imgs 0 (by omega)
  simpa [images_capacity_u32] using this

/-! ## Claim theorems -/

/-- C1: for every payload byte buffer P (including the empty buffer) and every
key string K, decoding the encoded output with the same key returns exactly P,
whenever P's framed form fits the carrier's capacity. The `OsRng` nonce draw
is an explicit 12-byte argument; the byte-range hypotheses state what the
source's `u8` buffer types already enforce, and `P.length + 28 < 2 ^ 32` is
the body length fitting the `u32` header field. -/
theorem decode_encode_round_trip (P : List Nat) (key : String) (nonce : List Nat) (img : Image)
    (hdata : img.data.length = img.width * img.height * 4)
    (hbytesP : ∀ b ∈ P, b < 256)
    (hn12 : nonce.length = 12) (hnB : ∀ b ∈ nonce, b < 256)
    (hsmall : P.length + 28 < 2 ^ 32)
    (hfit : (get_message_bits P key nonce).length ≤ capacityBits img) :
    (set_bits_image img (get_message_bits P key nonce)).2 = none ∧
      decode_from_files_model [(set_bits_image img (get_message_bits P key nonce)).1] key
        = .ok P := by
  have hchk : check_capacity_image img (get_message_bits P key nonce) = .ok () := by
    simp only [check_capacity_image, check_capacity, capacityBits] at hfit ⊢
    rw [if_neg (by omega)]
  have hset : set_bits_image img (get_message_bits P key nonce)
      = ({ img with data := setBitsList img.data (get_message_bits P key nonce) }, none) := by
    simp only [set_bits_image, hchk]
  refine ⟨by rw [hset], ?_⟩
  rw [hset]
  simp only [decode_from_files_model, List.isEmpty_cons, List.flatMap_cons, List.flatMap_nil,
    List.append_nil, Bool.false_eq_true, if_false]
  exact decode_channels_setBits P key nonce img.data hn12 hnB hbytesP hsmall
    (by rw [hdata]; exact hfit)

set_option maxRecDepth 10000 in
/-- Witness for C1: a one-byte payload through a 68 x 1 carrier. -/
theorem decode_encode_round_trip_witness :
    decode_from_files_model
      [(set_bits_image ⟨68, 1, List.replicate 272 0⟩
          (get_message_bits [7] "k" (List.replicate 12 5))).1] "k" = .ok [7] :=
  (decode_encode_round_trip [7] "k" (List.replicate 12 5) ⟨68, 1, List.replicate 272 0⟩
    (by simp) (by decide) (by simp) (by decide) (by norm_num)
    (by rw [get_message_bits_length _ _ _ (by simp)]; simp [capacityBits])).2

/-- C2: encoding writes bit `i` of the bit stream into the LSB of channel `i`
of the flattened channel stream, the seven high bits of every touched channel
are unchanged, and every channel at or beyond the bit stream's length keeps
its input value exactly. -/
theorem set_bits_writes_lsb_only (img : Image) (bits : List Bool)
    (hdata : img.data.length = img.width * img.height * 4)
    (hbytes : ∀ c ∈ img.data, c < 256)
    (hfit : bits.length ≤ img.width * img.height * 4) :
    (set_bits_image img bits).2 = none ∧
    (set_bits_image img bits).1.data.length = img.data.length ∧
    (∀ i, i < bits.length →
      (set_bits_image img bits).1.data.getD i 0 % 2 = b2n (bits.getD i false) ∧
      (set_bits_image img bits).1.data.getD i 0 / 2 = img.data.getD i 0 / 2) ∧
    (∀ i, bits.length ≤ i →
      (set_bits_image img bits).1.data.getD i 0 = img.data.getD i 0) := by
  have hset : set_bits_image img bits
      = ({ img with data := setBitsList img.data bits }, none) := by
    simp only [set_bits_image, check_capacity_image, check_capacity, capacityBits]
    rw [if_neg (by omega)]
  rw [hset]
  refine ⟨rfl, setBitsList_length _ _, ?_, ?_⟩
  · intro i hi
    have hic : i < img.data.length := by omega
    have hgd := setBitsList_getD img.data bits i
    rw [if_pos ⟨hi, hic⟩] at hgd
    have hmem : img.data.getD i 0 ∈ img.data := by
      rw [List.getD_eq_getElem _ _ hic]
      exact List.getElem_mem hic
    have hval := set_channel_val (img.data.getD i 0) (hbytes _ hmem) (bits.getD i false)
    have hb : b2n (bits.getD i false) ≤ 1 := by
      cases bits.getD i false <;> simp [b2n]
    constructor
    · rw [hgd, hval]; omega
    · rw [hgd, hval]; omega
  · intro i hi
    have hgd := setBitsList_getD img.data bits i
    rw [if_neg (by omega)] at hgd
    exact hgd

/-- Witness for C2: two bits into a 1 x 1 carrier with channels 3, 5, 7, 9. -/
theorem set_bits_writes_lsb_only_witness :
    (set_bits_image ⟨1, 1, [3, 5, 7, 9]⟩ [true, false]).2 = none ∧
    (set_bits_image ⟨1, 1, [3, 5, 7, 9]⟩ [true, false]).1.data.length
      = (⟨1, 1, [3, 5, 7, 9]⟩ : Image).data.length ∧
    (∀ i, i < ([true, false] : List Bool).length →
      (set_bits_image ⟨1, 1, [3, 5, 7, 9]⟩ [true, false]).1.data.getD i 0 % 2
        = b2n (([true, false] : List Bool).getD i false) ∧
      (set_bits_image ⟨1, 1, [3, 5, 7, 9]⟩ [true, false]).1.data.getD i 0 / 2
        = (⟨1, 1, [3, 5, 7, 9]⟩ : Image).data.getD i 0 / 2) ∧
    (∀ i, ([true, false] : List Bool).length ≤ i →
      (set_bits_image ⟨1, 1, [3, 5, 7, 9]⟩ [true, false]).1.data.getD i 0
        = (⟨1, 1, [3, 5, 7, 9]⟩ : Image).data.getD i 0) :=
  set_bits_writes_lsb_only ⟨1, 1, [3, 5, 7, 9]⟩ [true, false]
    (by decide) (by decide) (by decide)

/-- C3: every embedded frame begins with the fixed five-byte header, a
version byte followed by the encrypted body's length as big-endian `u32`,
regardless of payload size; and a decoder that reads a version byte other
than the supported one fails with the unsupported-version error before the
body is read (no constraint is needed on the channels past the header). -/
theorem frame_header_and_version_reject :
    (∀ (msg : List Nat) (key : String) (nonce : List Nat),
      get_message_bits msg key nonce =
        convert_bytes_to_bits
          ((PROTOCOL_VERSION :: toBE32 ((encryptWithNonce msg key nonce).length % 2 ^ 32)) ++
            encryptWithNonce msg key nonce)) ∧
    (∀ body : List Nat,
      (get_message_header_bytes body).length = 5 ∧
      (get_message_header_bytes body).getD 0 9 = PROTOCOL_VERSION ∧
      (get_message_header_bytes body).drop 1 = toBE32 (body.length % 2 ^ 32) ∧
      (body.length < 2 ^ 32 →
        fromBE32 ((get_message_header_bytes body).drop 1) = body.length)) ∧
    (∀ (img : Image) (key : String), 40 ≤ img.data.length →
      readVersion img.data ≠ PROTOCOL_VERSION →
      decode_from_files_model [img] key =
        .error (.unsupportedVersion (readVersion img.data) PROTOCOL_VERSION)) := by
  refine ⟨fun msg key nonce => rfl, fun body => ⟨by simp [get_message_header_bytes, toBE32],
    rfl, rfl, fun hlt => ?_⟩, fun img key h40 hv => ?_⟩
  · rw [show (get_message_header_bytes body).drop 1 = toBE32 (body.length % 2 ^ 32) from rfl,
      fromBE32_toBE32 _ (Nat.mod_lt _ (by norm_num))]
    exact Nat.mod_eq_of_lt hlt
  · have hr : read_bits img.data 40 = .ok ((img.data.take 40).map lsbB) := by
      simp only [read_bits]
      rw [if_neg (by omega)]
    simp only [decode_from_files_model, List.isEmpty_cons, Bool.false_eq_true, if_false,
      List.flatMap_cons, List.flatMap_nil, List.append_nil, decode_channels, hr]
    have hrv : (bits_to_bytes (List.map lsbB (List.take 40 img.data))).getD 0 0
        = readVersion img.data := rfl
    rw [hrv, if_pos hv]

/-- Witness for C3: version byte 1 in the embedded stream is rejected. -/
theorem frame_header_and_version_reject_witness :
    decode_from_files_model [⟨10, 1, (1 : Nat) :: List.replicate 39 0⟩] "" =
      .error (.unsupportedVersion 1 PROTOCOL_VERSION) := by
  have h := frame_header_and_version_reject.2.2 ⟨10, 1, (1 : Nat) :: List.replicate 39 0⟩ ""
    (by decide) (by decide)
  rw [show readVersion (((⟨10, 1, (1 : Nat) :: List.replicate 39 0⟩ : Image)).data) = 1
    from by decide] at h
  exact h

/-- C4: the capacity check fails with the message-too-large error exactly
when the needed bit count exceeds the capacity bits; a load of exactly the
capacity succeeds and one more bit fails. For a single carrier the capacity
is `width * height * 4` bits; for a carrier set it is the per-carrier sum,
stated here below the `u32` bound at which the code's sum is exact (the
wrapped sum is the subject of the C10 theorems). -/
theorem check_capacity_boundary :
    (∀ cap n, check_capacity cap n = .error (.messageTooLarge cap n) ↔ n > cap) ∧
    (∀ cap, check_capacity cap cap = .ok ()) ∧
    (∀ cap, check_capacity cap (cap + 1) = .error (.messageTooLarge cap (cap + 1))) ∧
    (∀ (img : Image) (bits : List Bool),
      check_capacity_image img bits
        = .error (.messageTooLarge (img.width * img.height * 4) bits.length)
        ↔ bits.length > img.width * img.height * 4) ∧
    (∀ (imgs : List Image) (bits : List Bool), sum_capacity imgs < 2 ^ 32 →
      (check_capacity_images imgs bits
        = .error (.messageTooLarge (sum_capacity imgs) bits.length)
        ↔ bits.length > sum_capacity imgs)) := by
  have hbase : ∀ cap n, check_capacity cap n = .error (.messageTooLarge cap n) ↔ n > cap := by
    intro cap n
    by_cases h : n > cap <;> simp [check_capacity, h]
  refine ⟨hbase, ?_, ?_, ?_, ?_⟩
  · intro cap; simp [check_capacity]
  · intro cap; simp [check_capacity]
  · intro img bits
    exact hbase (img.width * img.height * 4) bits.length
  · intro imgs bits h
    rw [show check_capacity_images imgs bits
      = check_capacity (images_capacity_u32 imgs) bits.length from rfl,
      images_capacity_u32_eq imgs h]
    exact hbase _ _

/-- Witness for C4: the summed-capacity part at a two-carrier set whose true
capacity, 8 + 16 = 24 bits, is below the u32 bound. -/
theorem check_capacity_boundary_witness :
    check_capacity_images [⟨1, 2, []⟩, ⟨2, 2, []⟩] (List.replicate 25 true)
      = .error (.messageTooLarge (sum_capacity [⟨1, 2, []⟩, ⟨2, 2, []⟩])
          (List.replicate 25 true).length)
      ↔ (List.replicate 25 true).length > sum_capacity [⟨1, 2, []⟩, ⟨2, 2, []⟩] :=
  check_capacity_boundary.2.2.2.2 [⟨1, 2, []⟩, ⟨2, 2, []⟩] (List.replicate 25 true) (by decide)

/-- C6: byte-to-bit conversion emits, for each byte in order, its eight bits
ordered least- to most-significant, producing exactly `8 * len` bits with no
failure mode and no reordering across byte boundaries (bit `8 * i + j` of the
output is bit `j` of byte `i`), and regrouping the bits in eights is its
exact inverse. -/
theorem bytes_bits_conversion :
    (∀ bytes : List Nat, (convert_bytes_to_bits bytes).length = 8 * bytes.length) ∧
    (∀ (bytes : List Nat) (i j : Nat), i < bytes.length → j < 8 →
      (convert_bytes_to_bits bytes).getD (8 * i + j) false
        = ((bytes.getD i 0 >>> j) &&& 1 == 1)) ∧
    (∀ bytes : List Nat, (∀ b ∈ bytes, b < 256) →
      bits_to_bytes (convert_bytes_to_bits bytes) = bytes) := by
  have hbit : ∀ (b j : Nat), j < 8 →
      (bitsOfByte b).getD j false = ((b >>> j) &&& 1 == 1) := by
    intro b j hj
    simp [bitsOfByte, List.getD_eq_getElem?_getD, List.getElem?_map, List.getElem?_range, hj]
  refine ⟨convert_length, ?_, bits_to_bytes_convert⟩
  intro bytes
  induction bytes with
  | nil => intro i j hi _; exact absurd hi (by simp)
  | cons b bs ih =>
    intro i j hi hj
    rw [convert_cons]
    cases i with
    | zero =>
      rw [List.getD_append _ _ _ _ (by rw [bitsOfByte_length]; omega)]
      simpa using hbit b j hj
    | succ k =>
      have hidx : 8 * (k + 1) + j = (bitsOfByte b).length + (8 * k + j) := by
        rw [bitsOfByte_length]; ring
      rw [hidx, List.getD_append_right _ _ _ _ (by omega), Nat.add_sub_cancel_left]
      simpa using ih k j (by simpa using hi) hj

/-- Witness for C6: the index characterization and the inverse at a concrete
two-byte buffer. -/
theorem bytes_bits_conversion_witness :
    (convert_bytes_to_bits [5, 254]).getD (8 * 1 + 0) false
      = ((([5, 254] : List Nat).getD 1 0 >>> 0) &&& 1 == 1) ∧
    bits_to_bytes (convert_bytes_to_bits [5, 254]) = [5, 254] :=
  ⟨bytes_bits_conversion.2.1 [5, 254] 1 0 (by decide) (by decide),
   bytes_bits_conversion.2.2 [5, 254] (by decide)⟩

/-- C9: encoding is atomic with respect to the carrier's pixel buffer:
whenever `set_bits_image` or `encode_bytes_v0` returns its capacity error,
the returned mutable image state is exactly the input image, because the
capacity check precedes every channel write. -/
theorem capacity_error_leaves_image_unchanged :
    (∀ (img : Image) (bits : List Bool),
      (set_bits_image img bits).2.isSome → (set_bits_image img bits).1 = img) ∧
    (∀ (img : Image) (msg : List Nat),
      (encode_bytes_v0 img msg).2.isSome → (encode_bytes_v0 img msg).1 = img) := by
  constructor
  · intro img bits h
    by_cases hc : bits.length > capacityBits img
    · simp [set_bits_image, check_capacity_image, check_capacity, hc]
    · exfalso
      simp [set_bits_image, check_capacity_image, check_capacity, hc] at h
  · intro img msg h
    simp only [encode_bytes_v0] at h ⊢
    by_cases hc : cap32 img / 8 < (msg.length % 2 ^ 32 + 4) % 2 ^ 32
    · rw [if_pos hc]
    · rw [if_neg hc] at h
      simp at h

/-- Witness for C9: a one-bit overflow of an empty carrier and a three-byte
overflow of a single-pixel carrier both leave the images untouched. -/
theorem capacity_error_leaves_image_unchanged_witness :
    (set_bits_image ⟨0, 0, []⟩ [true]).1 = ⟨0, 0, []⟩ ∧
    (encode_bytes_v0 ⟨1, 1, [0, 0, 0, 0]⟩ [1, 2, 3]).1 = ⟨1, 1, [0, 0, 0, 0]⟩ :=
  ⟨capacity_error_leaves_image_unchanged.1 ⟨0, 0, []⟩ [true] (by decide),
   capacity_error_leaves_image_unchanged.2 ⟨1, 1, [0, 0, 0, 0]⟩ [1, 2, 3] (by decide)⟩

/-- Counterexample for C10: a single 32768 x 32768 carrier has true capacity
`32768 * 32768 * 4 = 2 ^ 32` bits, but the code's `u32` product wraps to 0,
so a one-bit message is rejected with `MessageTooLarge` even though it fits
the true total capacity — the decision is not made against the true sum. -/
theorem capacity_sum_wrap_counterexample :
    check_capacity_images [⟨32768, 32768, []⟩] [true] = .error (.messageTooLarge 0 1) ∧
    1 ≤ 32768 * 32768 * 4 := by
  constructor
  · decide
  · norm_num

/-- C10 amended: whenever the mathematical sum of `width * height * 4` over
the carrier set is below `2 ^ 32` (so neither the per-carrier `u32` product
nor the accumulated `u32` sum wraps), the computed capacity equals the true
sum exactly and the `MessageTooLarge` decision is made against it. -/
theorem capacity_sum_exact_below_u32 (imgs : List Image) (bits : List Bool)
    (h : sum_capacity imgs < 2 ^ 32) :
    images_capacity_u32 imgs = sum_capacity imgs ∧
    (check_capacity_images imgs bits
      = .error (.messageTooLarge (sum_capacity imgs) bits.length)
      ↔ bits.length > sum_capacity imgs) := by
  have he := images_capacity_u32_eq imgs h
  refine ⟨he, ?_⟩
  rw [show check_capacity_images imgs bits
    = check_capacity (images_capacity_u32 imgs) bits.length from rfl, he]
  by_cases hgt : bits.length > sum_capacity imgs <;> simp [check_capacity, hgt]

/-- Witness for the amended C10 at a two-carrier set. -/
theorem capacity_sum_exact_below_u32_witness :
    images_capacity_u32 [⟨3, 1, []⟩, ⟨2, 2, []⟩] = sum_capacity [⟨3, 1, []⟩, ⟨2, 2, []⟩] ∧
    (check_capacity_images [⟨3, 1, []⟩, ⟨2, 2, []⟩] [true, false]
      = .error (.messageTooLarge (sum_capacity [⟨3, 1, []⟩, ⟨2, 2, []⟩])
          ([true, false] : List Bool).length)
      ↔ ([true, false] : List Bool).length > sum_capacity [⟨3, 1, []⟩, ⟨2, 2, []⟩]) :=
  capacity_sum_exact_below_u32 [⟨3, 1, []⟩, ⟨2, 2, []⟩] [true, false] (by decide)

lemma clamp_and_check_bounds (total ow oh : Nat) (p : Nat × Nat) :
    (clamp_and_check total ow oh p).1 ≤ ow ∧
    (clamp_and_check total ow oh p).2 ≤ oh ∧
    ((clamp_and_check total ow oh p).1 * (clamp_and_check total ow oh p).2 * 4 / 8
        ≥ total % 2 ^ 32 ∨
      clamp_and_check total ow oh p = (ow, oh)) := by
  simp only [clamp_and_check]
  by_cases hfin : mul32 (mul32 (min p.1 ow) (min p.2 oh)) 4 / 8 < total % 2 ^ 32
  · rw [if_pos hfin]
    exact ⟨le_refl _, le_refl _, Or.inr rfl⟩
  · rw [if_neg hfin]
    refine ⟨Nat.min_le_right _ _, Nat.min_le_right _ _, Or.inl ?_⟩
    have h1 : mul32 (mul32 (min p.1 ow) (min p.2 oh)) 4
        ≤ min p.1 ow * min p.2 oh * 4 := by
      calc mul32 (mul32 (min p.1 ow) (min p.2 oh)) 4
          ≤ mul32 (min p.1 ow) (min p.2 oh) * 4 := Nat.mod_le _ _
        _ ≤ min p.1 ow * min p.2 oh * 4 :=
          Nat.mul_le_mul_right _ (Nat.mod_le _ _)
    have h2 := Nat.div_le_div_right (c := 8) h1
    show total % 2 ^ 32 ≤ min p.1 ow * min p.2 oh * 4 / 8
    omega

set_option maxRecDepth 10000 in
/-- Counterexample for C7: at payload 89996 bytes, original 1200 x 600 and
minimum dimension 600 the function returns 600 x 300 — not the fallback —
whose capacity 720000 bits equals `(89996 + 4) * 8` exactly and is therefore
below the claimed `(payloadByteLen + 5) * 8 = 720008` bits; moreover the
smaller returned dimension 300 is below
`min(minDimension, min(originalWidth, originalHeight)) = 600`. Every `f64`
step of the source is exact at this input (the aspect quotient is 2, the
divisions are by powers of two, and `sqrt 90000 = 300` exactly). -/
theorem optimal_dimensions_counterexample :
    calculate_optimal_dimensions 89996 1200 600 600 = (600, 300) ∧
    ¬ (600 * 300 * 4 ≥ (89996 + 5) * 8 ∨
        calculate_optimal_dimensions 89996 1200 600 600 = (1200, 600)) ∧
    min 600 300 < min 600 (min 1200 600) := by
  refine ⟨by decide, ?_, by decide⟩
  intro h
  rcases h with h | h
  · omega
  · rw [show calculate_optimal_dimensions 89996 1200 600 600 = (600, 300) from by decide] at h
    simp at h

/-- C7 amended: for payloads whose framed byte count `msg + 4` fits `u32`
(the range where the source's `total_bytes as u32` truncation is the
identity), `calculate_optimal_dimensions` never exceeds the original
dimensions, and either the byte capacity of the result,
`width * height * 4 / 8`, is at least `msg + 4` (the v0 framing's 4-byte
length prefix, which is what the source budgets — not the claimed 5-byte
header), or the result is exactly the unmodified original dimensions. The
claim's minimum-dimension guarantee is dropped: the source floors only the
aspect-major side at the effective minimum (see the counterexample). For
payloads at or beyond `2 ^ 32 - 4` bytes the truncated comparison can skip
the fallback, so no capacity guarantee holds there. -/
theorem optimal_dimensions_bounds (msg ow oh md : Nat) (h : msg + 4 < 2 ^ 32) :
    (calculate_optimal_dimensions msg ow oh md).1 ≤ ow ∧
    (calculate_optimal_dimensions msg ow oh md).2 ≤ oh ∧
    ((calculate_optimal_dimensions msg ow oh md).1 *
        (calculate_optimal_dimensions msg ow oh md).2 * 4 / 8 ≥ msg + 4 ∨
      calculate_optimal_dimensions msg ow oh md = (ow, oh)) := by
  have key : ∀ q : Nat × Nat,
      (clamp_and_check (msg + 4) ow oh q).1 ≤ ow ∧
      (clamp_and_check (msg + 4) ow oh q).2 ≤ oh ∧
      ((clamp_and_check (msg + 4) ow oh q).1 * (clamp_and_check (msg + 4) ow oh q).2 * 4 / 8
          ≥ msg + 4 ∨
        clamp_and_check (msg + 4) ow oh q = (ow, oh)) := by
    intro q
    have hb := clamp_and_check_bounds (msg + 4) ow oh q
    rwa [Nat.mod_eq_of_lt h] at hb
  exact key _

/-- Witness for the amended C7 at the counterexample input, whose framed
byte count 90000 fits `u32`. -/
theorem optimal_dimensions_bounds_witness :
    (calculate_optimal_dimensions 89996 1200 600 600).1 ≤ 1200 ∧
    (calculate_optimal_dimensions 89996 1200 600 600).2 ≤ 600 ∧
    ((calculate_optimal_dimensions 89996 1200 600 600).1 *
        (calculate_optimal_dimensions 89996 1200 600 600).2 * 4 / 8 ≥ 89996 + 4 ∨
      calculate_optimal_dimensions 89996 1200 600 600 = (1200, 600)) :=
  optimal_dimensions_bounds 89996 1200 600 600 (by norm_num)

lemma encodeSaveLoop_ok (imgs : List Image) (bits : List Bool) :
    encodeSaveLoop imgs bits = .ok (specSplitSaved imgs bits) := by
  induction imgs generalizing bits with
  | nil => simp [encodeSaveLoop, specSplitSaved]
  | cons img rest ih =>
    by_cases hb : bits.length = 0
    · have hnil : bits = [] := List.eq_nil_of_length_eq_zero hb
      subst hnil
      simp [encodeSaveLoop, specSplitSaved]
    · have hne : ¬ bits = [] := fun hc => hb (by simp [hc])
      have hcap : cap32 img ≤ capacityBits img := by
        simp only [cap32, capacityBits, mul32]
        calc img.width * img.height % 2 ^ 32 * 4 % 2 ^ 32
            ≤ img.width * img.height % 2 ^ 32 * 4 := Nat.mod_le _ _
          _ ≤ img.width * img.height * 4 :=
            Nat.mul_le_mul_right _ (Nat.mod_le _ _)
      have hchk : check_capacity_image img (bits.take (min (cap32 img) bits.length))
          = .ok () := by
        simp only [check_capacity_image, check_capacity, List.length_take]
        rw [if_neg (by omega)]
      simp only [encodeSaveLoop, specSplitSaved, hb, hne, if_false, set_bits_image, hchk, ih]

/-- C8 amended: multi-carrier encode splits the framed bit stream at exactly
each carrier's capacity boundary — carrier `k` receives the next
`min(capacity_k, remaining)` bits in carrier order, and a zero-capacity
carrier reached before exhaustion is saved unmodified — but once the stream
is exhausted the loop stops without saving the remaining carriers
(`if cursor >= total_bits break` precedes the save), so the output set
consists of the carriers up to and including the one holding the final bit,
not one output per input. `specSplitSaved` states this split. -/
theorem multi_carrier_split (imgs : List Image) (msg : List Nat) (key : String)
    (nonce : List Nat) (hne : imgs ≠ [])
    (hcap : check_capacity_images imgs (get_message_bits msg key nonce) = .ok ()) :
    encode_from_files_model imgs msg key nonce
      = .ok (specSplitSaved imgs (get_message_bits msg key nonce)) := by
  simp only [encode_from_files_model]
  rw [if_neg (by simpa [List.isEmpty_iff] using hne)]
  rw [hcap]
  exact encodeSaveLoop_ok imgs _

set_option maxRecDepth 10000 in
/-- Witness for the amended C8: an empty payload (264 framed bits) across a
66 x 1 carrier followed by a 1 x 1 carrier. -/
theorem multi_carrier_split_witness :
    encode_from_files_model [⟨66, 1, List.replicate 264 0⟩, ⟨1, 1, [0, 0, 0, 0]⟩] [] ""
        (List.replicate 12 0)
      = .ok (specSplitSaved [⟨66, 1, List.replicate 264 0⟩, ⟨1, 1, [0, 0, 0, 0]⟩]
          (get_message_bits [] "" (List.replicate 12 0))) :=
  multi_carrier_split [⟨66, 1, List.replicate 264 0⟩, ⟨1, 1, [0, 0, 0, 0]⟩] [] ""
    (List.replicate 12 0) (by simp) (by decide)

set_option maxRecDepth 10000 in
/-- Counterexample for C8: the same two-carrier set as the witness; the
framed stream fits entirely in the first carrier, the loop breaks before the
second carrier is saved, and the output set has one file for two input
carriers — refuting the claim that every zero-bit carrier is still re-saved
so that the output set has one file per input carrier. -/
theorem multi_carrier_resave_counterexample :
    (encode_from_files_model [⟨66, 1, List.replicate 264 0⟩, ⟨1, 1, [0, 0, 0, 0]⟩] [] ""
        (List.replicate 12 0)).map List.length = .ok 1 ∧
    ([⟨66, 1, List.replicate 264 0⟩, ⟨1, 1, [0, 0, 0, 0]⟩] : List Image).length = 2 := by
  exact ⟨by decide, rfl⟩

end Lowkey
